import Mathlib

/-!
Shallow embedding of the country-cache service (`main.py`): the refresh
merge/upsert pipeline, the metadata write, the summary-image step, and the
read endpoints (`list`, `get`, `delete`).

Modelling notes, matching the source line by line:
* The SQLAlchemy session is created with `autoflush=False`, so queries issued
  during the refresh loop see only rows already committed to the database;
  rows added with `session.add` earlier in the same batch are invisible to the
  case-insensitive lookup.  The session state is therefore split into `rows`
  (loaded/committed rows, visible to queries and mutated in place by updates)
  and `pending` (newly added rows, flushed only at commit).
* `one_or_none` raises `MultipleResultsFound` (an `SQLAlchemyError`) when a
  query matches two or more rows; this is the `Except.error` outcome.
* The `name` column carries a case-sensitive UNIQUE constraint, checked at
  commit time: commit fails when two rows share an exactly equal name.
* Python truthiness: `if not name`, `if not currency_code`, `if region:` treat
  the empty string like `None`.
* `float(rates[code])` and the division run inside one `try`: an unparseable
  rate gives both fields `None` without drawing the multiplier; a rate parsing
  to `0.0` draws the multiplier, then `ZeroDivisionError` gives both `None`.
* Numbers are embedded as `Int`/`ℚ`; the random multiplier is an oracle
  `rng : Nat → Int` consumed left to right, one draw per record that reaches
  `random.randint`.
-/

namespace CountryApi

/-- One element of a record's `currencies` list: either a JSON object (whose
`code` key may be absent) or a non-object value. -/
inductive CurrencyEntry where
  | dictEntry (code : Option String)
  | nonDict
deriving Repr, DecidableEq

/-- The `currencies` field of a raw record after `c.get("currencies") or []`:
a list, a truthy non-list value, or absent/falsy (normalised to `[]`). -/
inductive CurrenciesVal where
  | listVal (entries : List CurrencyEntry)
  | nonListTruthy
  | absent
deriving Repr, DecidableEq

/-- A raw country record from the countries feed, with the fields the refresh
loop reads (`main.py` lines 195–202). -/
structure RawCountry where
  name : Option String
  population : Option Int
  capital : Option String
  region : Option String
  flag : Option String
  currencies : CurrenciesVal
deriving Repr, DecidableEq

/-- A value of the exchange-rate mapping: a number, or a value on which
`float(...)` raises. -/
inductive RateVal where
  | num (q : ℚ)
  | unparseable
deriving Repr, DecidableEq

/-- A row of the `countries` table. -/
structure CountryRow where
  name : String
  capital : Option String
  region : Option String
  population : Int
  currency_code : Option String
  exchange_rate : Option ℚ
  estimated_gdp : Option ℚ
  flag_url : Option String
  last_refreshed_at : Option String
deriving Repr, DecidableEq

/-- The persisted state: the `countries` table plus the `meta` key/value
table. -/
structure Store where
  countries : List CountryRow
  meta : List (String × String)
deriving Repr, DecidableEq

/-- The refresh loop's session state: `rows` are the rows visible to queries
(committed rows, updated in place), `pending` the rows added by `session.add`
and not yet flushed (`autoflush=False`), `idx` the position in the random
stream. -/
structure Sess where
  rows : List CountryRow
  pending : List CountryRow
  idx : Nat
deriving Repr, DecidableEq

/-- Python truthiness of an optional string: `None` and `""` are falsy. -/
def optStrFalsy : Option String → Bool
  | none => true
  | some s => s.isEmpty

/-- `currency_code` resolution (`main.py` lines 209–214): the `code` key of
the first currency entry when the field is a list whose first element is an
object; otherwise `None`. -/
def resolveCurrencyCode : CurrenciesVal → Option String
  | CurrenciesVal.listVal (CurrencyEntry.dictEntry code :: _) => code
  | CurrenciesVal.listVal (CurrencyEntry.nonDict :: _) => none
  | CurrenciesVal.listVal [] => none
  | CurrenciesVal.nonListTruthy => none
  | CurrenciesVal.absent => none

/-- Derivation policy (`main.py` lines 216–238): given the rate table, the
multiplier draw `m` offered to this record, the population and the resolved
currency code, return `(exchange_rate, estimated_gdp, drew)` where `drew`
records whether `random.randint` actually ran. -/
def deriveFields (rates : List (String × RateVal)) (m : Int) (population : Int) :
    Option String → Option ℚ × Option ℚ × Bool
  | none => (none, some 0, false)
  | some s =>
    if s.isEmpty then (none, some 0, false)
    else
      match rates.lookup s with
      | none => (none, none, false)
      | some RateVal.unparseable => (none, none, false)
      | some (RateVal.num q) =>
        if q = 0 then (none, none, true)
        else (some q, some (((population * m : Int) : ℚ) / q), true)

/-- Lower-casing a string by mapping over its characters (structurally
recursive, so the kernel can evaluate it); agrees with Python's `lower()` and
SQL's `lower()` on ASCII names. -/
def strLower (s : String) : String := String.mk (s.data.map Char.toLower)

/-- Case-insensitive name match, the predicate of
`func.lower(Country.name) == name.lower()`. -/
def nameMatches (n : String) (r : CountryRow) : Bool :=
  (strLower r.name) == (strLower n)

/-- Overwrite the mutable fields of an existing row (`main.py` lines 242–251);
`name` and the identity are kept. -/
def updateRow (ts : String) (capital region : Option String) (population : Int)
    (code : Option String) (rate gdp : Option ℚ) (flag : Option String)
    (r : CountryRow) : CountryRow :=
  { r with
    capital := capital
    region := region
    population := population
    currency_code := code
    exchange_rate := rate
    estimated_gdp := gdp
    flag_url := flag
    last_refreshed_at := some ts }

/-- Update the first row satisfying `p` in place, leaving the rest alone. -/
def updateFirst (p : CountryRow → Bool) (f : CountryRow → CountryRow) :
    List CountryRow → List CountryRow
  | [] => []
  | r :: rs => if p r then f r :: rs else r :: updateFirst p f rs

/-- Process one raw record of the refresh loop (`main.py` lines 195–264):
skip when `name` is falsy or `population` is `None`; otherwise derive the
fields and upsert against the rows visible to the query.  `Except.error`
is the `MultipleResultsFound` raised by `one_or_none` on two or more
matches. -/
def stepRecord (rates : List (String × RateVal)) (rng : Nat → Int) (ts : String)
    (st : Sess) (c : RawCountry) : Except Unit Sess :=
  match c.name, c.population with
  | some n, some pop =>
    if n.isEmpty then Except.ok st
    else
      let code := resolveCurrencyCode c.currencies
      let d := deriveFields rates (rng st.idx) pop code
      let idx2 := if d.2.2 then st.idx + 1 else st.idx
      match st.rows.filter (nameMatches n) with
      | [] =>
        Except.ok { rows := st.rows
                    pending := st.pending ++
                      [⟨n, c.capital, c.region, pop, code, d.1, d.2.1, c.flag, some ts⟩]
                    idx := idx2 }
      | [_] =>
        Except.ok { rows := updateFirst (nameMatches n)
                      (updateRow ts c.capital c.region pop code d.1 d.2.1 c.flag) st.rows
                    pending := st.pending
                    idx := idx2 }
      | _ => Except.error ()
  | _, _ => Except.ok st

/-- The whole refresh loop over the fetched records. -/
def runBatch (rates : List (String × RateVal)) (rng : Nat → Int) (ts : String)
    (countries : List RawCountry) (st : Sess) : Except Unit Sess :=
  countries.foldlM (stepRecord rates rng ts) st

/-- `set_meta` (`main.py` lines 126–132): update the row for `k` when present,
else append a new one. -/
def setMeta (meta : List (String × String)) (k v : String) :
    List (String × String) :=
  if (meta.lookup k).isSome then
    meta.map (fun p => if p.1 == k then (k, v) else p)
  else meta ++ [(k, v)]

/-- The commit-time UNIQUE constraint on `countries.name` (case-sensitive). -/
def commitOk (rows : List CountryRow) : Bool :=
  decide (rows.map (fun r => r.name)).Nodup

/-- One refresh transaction (`main.py` lines 190–273): run the loop, write the
`last_refreshed_at` meta key, commit.  `Except.error` is the caught
`SQLAlchemyError` path: roll back, nothing persisted. -/
def refreshTxn (rates : List (String × RateVal)) (rng : Nat → Int) (ts : String)
    (countries : List RawCountry) (s : Store) : Except Unit Store :=
  match runBatch rates rng ts countries ⟨s.countries, [], 0⟩ with
  | Except.error _ => Except.error ()
  | Except.ok st =>
    let newRows := st.rows ++ st.pending
    if commitOk newRows then
      Except.ok ⟨newRows, setMeta s.meta "last_refreshed_at" ts⟩
    else Except.error ()

/-- The HTTP outcome of `POST /countries/refresh` once both upstream fetches
have succeeded. -/
inductive RefreshResponse where
  | success (ts : String)
  | storageFailure
  | renderFailure
deriving Repr, DecidableEq

/-- The refresh endpoint after the fetches (`main.py` lines 189–282): on a
storage error, 500 with the store rolled back; on commit, the summary image is
generated inside `try/finally` with no `except`, so a rendering failure
(`renderOk = false`) escapes to the framework as an error response even though
the commit already persisted. -/
def refreshEndpoint (rates : List (String × RateVal)) (rng : Nat → Int)
    (ts : String) (countries : List RawCountry) (renderOk : Bool) (s : Store) :
    RefreshResponse × Store :=
  match refreshTxn rates rng ts countries s with
  | Except.error _ => (RefreshResponse.storageFailure, s)
  | Except.ok s2 =>
    if renderOk then (RefreshResponse.success ts, s2)
    else (RefreshResponse.renderFailure, s2)

/-- The committed store after one refresh call: the new store on commit, the
old store after a rollback. -/
def refreshStore (rates : List (String × RateVal)) (rng : Nat → Int)
    (ts : String) (countries : List RawCountry) (s : Store) : Store :=
  match refreshTxn rates rng ts countries s with
  | Except.ok s2 => s2
  | Except.error _ => s

/-- Ascending comparison on `estimated_gdp` as SQLite's `ORDER BY ... ASC`
ranks rows: `NULL` sorts before every number. -/
def gdpAscLE (a b : CountryRow) : Bool :=
  match a.estimated_gdp, b.estimated_gdp with
  | none, _ => true
  | some _, none => false
  | some x, some y => decide (x ≤ y)

/-- Descending comparison on `estimated_gdp`: numbers in decreasing order,
`NULL` after every number. -/
def gdpDescLE (a b : CountryRow) : Bool :=
  match a.estimated_gdp, b.estimated_gdp with
  | _, none => true
  | none, some _ => false
  | some x, some y => decide (y ≤ x)

/-- Python truthiness of an optional query parameter. -/
def truthyOpt : Option String → Bool
  | none => false
  | some s => !s.isEmpty

/-- `GET /countries` (`main.py` lines 285–302): equality filters applied only
for truthy parameters, then the two recognised sort values. -/
def list_countries (s : Store) (region currency sortBy : Option String) :
    List CountryRow :=
  let q := s.countries
  let q := if truthyOpt region then q.filter (fun r => r.region == region) else q
  let q := if truthyOpt currency then
    q.filter (fun r => r.currency_code == currency) else q
  if truthyOpt sortBy then
    if sortBy == some "gdp_desc" then q.mergeSort gdpDescLE
    else if sortBy == some "gdp_asc" then q.mergeSort gdpAscLE
    else q
  else q

/-- Outcome of `GET /countries/{name}`: the row, a 404, or the
`MultipleResultsFound` escape (500). -/
inductive GetResult where
  | found (r : CountryRow)
  | notFound
  | multiError
deriving Repr, DecidableEq

/-- `GET /countries/{name}` (`main.py` lines 314–323). -/
def get_country (s : Store) (n : String) : GetResult :=
  match s.countries.filter (nameMatches n) with
  | [] => GetResult.notFound
  | [r] => GetResult.found r
  | _ => GetResult.multiError

/-- Remove the first row satisfying `p`. -/
def removeFirst (p : CountryRow → Bool) : List CountryRow → List CountryRow
  | [] => []
  | r :: rs => if p r then rs else r :: removeFirst p rs

/-- `DELETE /countries/{name}` (`main.py` lines 326–340): delete the unique
case-insensitive match, 404 when absent. -/
def delete_country (s : Store) (n : String) : GetResult × Store :=
  match s.countries.filter (nameMatches n) with
  | [] => (GetResult.notFound, s)
  | [r] => (GetResult.found r, ⟨removeFirst (nameMatches n) s.countries, s.meta⟩)
  | _ => (GetResult.multiError, s)

/-- The lower-cased names of a row list, the key set of the case-insensitive
upsert. -/
def lowerNames (rows : List CountryRow) : List String :=
  rows.map (fun r => (strLower r.name))

/-- The name/population pair of a record the refresh loop keeps, `none` when
the record is skipped (falsy name or missing population). -/
def keptKey (c : RawCountry) : Option (String × Int) :=
  match c.name, c.population with
  | some n, some pop => if n.isEmpty then none else some (n, pop)
  | _, _ => none

/-- The lower-cased names of the records a refresh does not skip. -/
def keptNames (countries : List RawCountry) : List String :=
  countries.filterMap (fun c => (keptKey c).map (fun q => (strLower q.1)))

/-- The resolved currency code of a record. -/
def recCode (c : RawCountry) : Option String :=
  resolveCurrencyCode c.currencies

/-- The derivation outcome offered to a record at session state `st`. -/
def recDerive (rates : List (String × RateVal)) (rng : Nat → Int) (st : Sess)
    (c : RawCountry) (pop : Int) : Option ℚ × Option ℚ × Bool :=
  deriveFields rates (rng st.idx) pop (recCode c)

/-- The fresh row the insert branch adds for a kept record. -/
def insRow (rates : List (String × RateVal)) (rng : Nat → Int) (ts : String)
    (st : Sess) (c : RawCountry) (n : String) (pop : Int) : CountryRow :=
  ⟨n, c.capital, c.region, pop, recCode c,
    (recDerive rates rng st c pop).1, (recDerive rates rng st c pop).2.1,
    c.flag, some ts⟩

/-- The in-place overwrite the update branch applies for a kept record. -/
def updFn (rates : List (String × RateVal)) (rng : Nat → Int) (ts : String)
    (st : Sess) (c : RawCountry) (pop : Int) : CountryRow → CountryRow :=
  updateRow ts c.capital c.region pop (recCode c)
    (recDerive rates rng st c pop).1 (recDerive rates rng st c pop).2.1 c.flag

/-- The random-stream position after processing a kept record. -/
def nextIdx (rates : List (String × RateVal)) (rng : Nat → Int) (st : Sess)
    (c : RawCountry) (pop : Int) : Nat :=
  if (recDerive rates rng st c pop).2.2 then st.idx + 1 else st.idx

/-! ### Concrete inputs for witnesses and counterexamples -/

/-- The empty persisted state. -/
def emptyStore : Store := ⟨[], []⟩

/-- A fixed multiplier oracle inside the range of `random.randint(1000, 2000)`. -/
def demoRng : Nat → Int := fun _ => 1500

/-- Two feed records whose names differ only in case. -/
def dupBatch : List RawCountry :=
  [⟨some "Nigeria", some 5, none, none, none, CurrenciesVal.absent⟩,
   ⟨some "NIGERIA", some 6, none, none, none, CurrenciesVal.absent⟩]

/-- The store the refresh of `dupBatch` commits from the empty store. -/
def dupStore : Store :=
  ⟨[⟨"Nigeria", none, none, 5, none, none, some 0, none, some "t"⟩,
    ⟨"NIGERIA", none, none, 6, none, none, some 0, none, some "t"⟩],
   [("last_refreshed_at", "t")]⟩

/-- A record with no currencies field. -/
def recNoCur : RawCountry :=
  ⟨some "Testland", some 7, none, none, none, CurrenciesVal.absent⟩

/-- A record whose first currency entry carries an empty `code`. -/
def recEmptyCode : RawCountry :=
  ⟨some "Testland", some 7, none, none, none,
    CurrenciesVal.listVal [CurrencyEntry.dictEntry (some "")]⟩

/-- A record with currency code ABC. -/
def recABC : RawCountry :=
  ⟨some "Testland", some 1000, none, none, none,
    CurrenciesVal.listVal [CurrencyEntry.dictEntry (some "ABC")]⟩

/-- A record with currency code XYZ. -/
def recXYZ : RawCountry :=
  ⟨some "Xanadu", some 5, none, none, none,
    CurrenciesVal.listVal [CurrencyEntry.dictEntry (some "XYZ")]⟩

/-- A record with a truthy, non-list currencies field. -/
def recNonList : RawCountry :=
  ⟨some "Atlantis", some 9, none, none, none, CurrenciesVal.nonListTruthy⟩

/-- A record the refresh skips: its population is missing. -/
def recNoPop : RawCountry :=
  ⟨some "Gondor", none, none, none, none, CurrenciesVal.absent⟩

/-- A one-entry rate table holding only USD. -/
def usdRates : List (String × RateVal) := [("USD", RateVal.num 1)]

/-- A rate table with a numeric rate for ABC and an unparseable value for XYZ. -/
def demoRates : List (String × RateVal) :=
  [("ABC", RateVal.num 2), ("XYZ", RateVal.unparseable)]

/-- A batch mixing a skipped record, an unparseable rate and a valid rate. -/
def messyBatch : List RawCountry := [recNoPop, recXYZ, recABC]

/-- The store committed by refreshing `[recABC]` against `demoRates` from the
empty store with the fixed oracle. -/
def abcStore : Store :=
  ⟨[⟨"Testland", none, none, 1000, some "ABC", some 2,
      some (((1500000 : Int) : ℚ) / 2), none, some "t"⟩],
   [("last_refreshed_at", "t")]⟩

/-- One committed row in region Africa. -/
def rowKenya : CountryRow :=
  ⟨"Kenya", none, some "Africa", 1, none, none, some 3, none, none⟩

/-- One committed row in region Asia with a smaller estimated value. -/
def rowJapan : CountryRow :=
  ⟨"Japan", none, some "Asia", 2, some "JPY", none, some 1, none, none⟩

/-- A store with two committed rows. -/
def twoRowStore : Store := ⟨[rowKenya, rowJapan], []⟩

/-! ### Basic lemmas about names, filters and `updateFirst` -/

theorem updateRow_name (ts : String) (capital region : Option String)
    (population : Int) (code : Option String) (rate gdp : Option ℚ)
    (flag : Option String) (r : CountryRow) :
    (updateRow ts capital region population code rate gdp flag r).name = r.name :=
  rfl

theorem updateFirst_map_name (p : CountryRow → Bool) (f : CountryRow → CountryRow)
    (hf : ∀ r, (f r).name = r.name) :
    ∀ rows : List CountryRow,
      (updateFirst p f rows).map (fun r => r.name) = rows.map (fun r => r.name)
  | [] => rfl
  | r :: rs => by
    by_cases h : p r = true
    · simp [updateFirst, h, hf r]
    · simp [updateFirst, h, updateFirst_map_name p f hf rs]

theorem lowerNames_eq_map (rows : List CountryRow) :
    lowerNames rows = (rows.map (fun r => r.name)).map (fun s => (strLower s)) := by
  simp [lowerNames, List.map_map, Function.comp_def]

theorem lowerNames_append (rows1 rows2 : List CountryRow) :
    lowerNames (rows1 ++ rows2) = lowerNames rows1 ++ lowerNames rows2 := by
  simp [lowerNames]

theorem mem_lowerNames {m : String} {rows : List CountryRow} :
    m ∈ lowerNames rows ↔ ∃ r ∈ rows, (strLower r.name) = m := by
  simp [lowerNames]

theorem filter_nameMatches_map_name (n : String) (rows : List CountryRow) :
    (rows.filter (nameMatches n)).map (fun r => r.name) =
      (rows.map (fun r => r.name)).filter (fun m => (strLower m) == (strLower n)) := by
  rw [List.filter_map]
  rfl

theorem filter_nameMatches_eq_nil {n : String} {rows : List CountryRow} :
    rows.filter (nameMatches n) = [] ↔ (strLower n) ∉ lowerNames rows := by
  rw [List.filter_eq_nil_iff]
  constructor
  · intro h hmem
    rcases mem_lowerNames.mp hmem with ⟨r, hr, hlow⟩
    exact h r hr (by simp [nameMatches, hlow])
  · intro h r hr hmatch
    exact h (mem_lowerNames.mpr ⟨r, hr, by simpa [nameMatches] using hmatch⟩)

theorem mem_filter_nameMatches {n : String} {rows : List CountryRow}
    {r : CountryRow} (h : r ∈ rows.filter (nameMatches n)) :
    r ∈ rows ∧ (strLower r.name) = (strLower n) := by
  have := List.mem_filter.mp h
  exact ⟨this.1, by simpa [nameMatches] using this.2⟩

theorem filter_nameMatches_le_one {rows : List CountryRow}
    (hnd : (lowerNames rows).Nodup) (n : String) :
    rows.filter (nameMatches n) = [] ∨
      ∃ x, rows.filter (nameMatches n) = [x] := by
  have hsub : List.Sublist ((rows.filter (nameMatches n)).map (fun r => (strLower r.name)))
      (lowerNames rows) := by
    rw [lowerNames_eq_map]
    have h1 : List.Sublist ((rows.filter (nameMatches n)).map (fun r => r.name))
        (rows.map (fun r => r.name)) := (List.filter_sublist rows).map _
    simpa [List.map_map, Function.comp_def] using h1.map (fun s => (strLower s))
  have hndf : ((rows.filter (nameMatches n)).map (fun r => (strLower r.name))).Nodup :=
    hnd.sublist hsub
  match hfl : rows.filter (nameMatches n) with
  | [] => exact Or.inl rfl
  | [x] => exact Or.inr ⟨x, rfl⟩
  | x :: y :: rest =>
    exfalso
    rw [hfl] at hndf
    have hx : x ∈ rows.filter (nameMatches n) := by rw [hfl]; simp
    have hy : y ∈ rows.filter (nameMatches n) := by rw [hfl]; simp
    have hxl := (mem_filter_nameMatches hx).2
    have hyl := (mem_filter_nameMatches hy).2
    have : (strLower x.name) ≠ (strLower y.name) := by
      have := List.nodup_cons.mp hndf
      exact fun hEq => this.1 (by simp [hEq])
    exact this (hxl.trans hyl.symm)

theorem updateFirst_decomp {p : CountryRow → Bool} {x : CountryRow}
    (f : CountryRow → CountryRow) :
    ∀ {rows : List CountryRow}, rows.filter p = [x] →
      ∃ l1 l2, rows = l1 ++ x :: l2 ∧ (∀ r ∈ l1, p r = false) ∧
        (∀ r ∈ l2, p r = false) ∧ updateFirst p f rows = l1 ++ f x :: l2
  | [], h => by simp at h
  | r :: rs, h => by
    by_cases hp : p r = true
    · have hfil : List.filter p (r :: rs) = r :: List.filter p rs := by
        simp [List.filter_cons, hp]
      rw [hfil] at h
      have hrx : r = x := (List.cons_eq_cons.mp h).1
      have hrs : rs.filter p = [] := (List.cons_eq_cons.mp h).2
      subst hrx
      refine ⟨[], rs, by simp, by simp, ?_, ?_⟩
      · intro q hq
        have := List.filter_eq_nil_iff.mp hrs q hq
        simpa using this
      · simp [updateFirst, hp]
    · have hfil : List.filter p (r :: rs) = List.filter p rs := by
        simp [List.filter_cons, hp]
      rw [hfil] at h
      rcases updateFirst_decomp f h with ⟨l1, l2, hrows, hl1, hl2, hupd⟩
      refine ⟨r :: l1, l2, by simp [hrows], ?_, hl2, ?_⟩
      · intro q hq
        rcases List.mem_cons.mp hq with hq | hq
        · simpa [hq] using hp
        · exact hl1 q hq
      · simp [updateFirst, hp, hupd]

/-! ### Equations and elimination for `stepRecord` -/

theorem stepRecord_skip {rates : List (String × RateVal)} {rng : Nat → Int}
    {ts : String} {st : Sess} {c : RawCountry} (hk : keptKey c = none) :
    stepRecord rates rng ts st c = Except.ok st := by
  obtain ⟨nm, po, cap, reg, fl, cur⟩ := c
  cases nm with
  | none => cases po <;> rfl
  | some n =>
    cases po with
    | none => rfl
    | some pop =>
      have hni : n.isEmpty = true := by
        by_contra hne
        simp [keptKey, hne] at hk
      simp [stepRecord, hni]

theorem keptKey_some_elim {c : RawCountry} {n : String} {pop : Int}
    (hk : keptKey c = some (n, pop)) :
    c.name = some n ∧ c.population = some pop ∧ n.isEmpty = false := by
  obtain ⟨nm, po, cap, reg, fl, cur⟩ := c
  cases nm with
  | none => simp [keptKey] at hk
  | some n' =>
    cases po with
    | none => simp [keptKey] at hk
    | some pop' =>
      by_cases hni : n'.isEmpty = true
      · simp [keptKey, hni] at hk
      · simp [keptKey, hni] at hk
        simp_all

theorem stepRecord_kept_nil {rates : List (String × RateVal)} {rng : Nat → Int}
    {ts : String} {st : Sess} {c : RawCountry} {n : String} {pop : Int}
    (hk : keptKey c = some (n, pop))
    (hfl : st.rows.filter (nameMatches n) = []) :
    stepRecord rates rng ts st c = Except.ok
      ⟨st.rows, st.pending ++ [insRow rates rng ts st c n pop],
        nextIdx rates rng st c pop⟩ := by
  obtain ⟨hn, hp, hni⟩ := keptKey_some_elim hk
  simp [stepRecord, hn, hp, hni, hfl, insRow, nextIdx, recDerive, recCode]

theorem stepRecord_kept_single {rates : List (String × RateVal)} {rng : Nat → Int}
    {ts : String} {st : Sess} {c : RawCountry} {n : String} {pop : Int}
    {x : CountryRow} (hk : keptKey c = some (n, pop))
    (hfl : st.rows.filter (nameMatches n) = [x]) :
    stepRecord rates rng ts st c = Except.ok
      ⟨updateFirst (nameMatches n) (updFn rates rng ts st c pop) st.rows,
        st.pending, nextIdx rates rng st c pop⟩ := by
  obtain ⟨hn, hp, hni⟩ := keptKey_some_elim hk
  simp [stepRecord, hn, hp, hni, hfl, updFn, nextIdx, recDerive, recCode]

theorem stepRecord_kept_multi {rates : List (String × RateVal)} {rng : Nat → Int}
    {ts : String} {st : Sess} {c : RawCountry} {n : String} {pop : Int}
    {x y : CountryRow} {rest : List CountryRow} (hk : keptKey c = some (n, pop))
    (hfl : st.rows.filter (nameMatches n) = x :: y :: rest) :
    stepRecord rates rng ts st c = Except.error () := by
  obtain ⟨hn, hp, hni⟩ := keptKey_some_elim hk
  simp [stepRecord, hn, hp, hni, hfl]

theorem stepRecord_ok_elim {rates : List (String × RateVal)} {rng : Nat → Int}
    {ts : String} {st : Sess} {c : RawCountry} {st' : Sess}
    (h : stepRecord rates rng ts st c = Except.ok st') :
    (keptKey c = none ∧ st' = st) ∨
    ∃ n pop, keptKey c = some (n, pop) ∧
      ((st.rows.filter (nameMatches n) = [] ∧ st'.rows = st.rows ∧
          st'.pending = st.pending ++ [insRow rates rng ts st c n pop] ∧
          st'.idx = nextIdx rates rng st c pop) ∨
       (∃ x, st.rows.filter (nameMatches n) = [x] ∧
          st'.rows = updateFirst (nameMatches n) (updFn rates rng ts st c pop) st.rows ∧
          st'.pending = st.pending ∧ st'.idx = nextIdx rates rng st c pop)) := by
  cases hkk : keptKey c with
  | none =>
    rw [stepRecord_skip hkk] at h
    exact Or.inl ⟨rfl, (Except.ok.injEq _ _).mp h.symm⟩
  | some q =>
    obtain ⟨n, pop⟩ := q
    refine Or.inr ⟨n, pop, rfl, ?_⟩
    cases hfl : st.rows.filter (nameMatches n) with
    | nil =>
      rw [stepRecord_kept_nil hkk hfl] at h
      have h2 := (Except.ok.injEq _ _).mp h
      subst h2
      exact Or.inl ⟨rfl, rfl, rfl, rfl⟩
    | cons x xs =>
      cases xs with
      | nil =>
        rw [stepRecord_kept_single hkk hfl] at h
        have h2 := (Except.ok.injEq _ _).mp h
        subst h2
        exact Or.inr ⟨x, rfl, rfl, rfl, rfl⟩
      | cons y rest =>
        rw [stepRecord_kept_multi hkk hfl] at h
        exact absurd h (by simp)

/-! ### Structure of `runBatch` -/

theorem runBatch_nil (rates : List (String × RateVal)) (rng : Nat → Int)
    (ts : String) (st : Sess) : runBatch rates rng ts [] st = Except.ok st :=
  rfl

theorem runBatch_cons (rates : List (String × RateVal)) (rng : Nat → Int)
    (ts : String) (c : RawCountry) (cs : List RawCountry) (st : Sess) :
    runBatch rates rng ts (c :: cs) st =
      (stepRecord rates rng ts st c).bind
        (fun st2 => runBatch rates rng ts cs st2) := by
  rw [runBatch, List.foldlM_cons]
  cases stepRecord rates rng ts st c <;> rfl

theorem runBatch_cons_ok_elim {rates : List (String × RateVal)} {rng : Nat → Int}
    {ts : String} {c : RawCountry} {cs : List RawCountry} {st st' : Sess}
    (h : runBatch rates rng ts (c :: cs) st = Except.ok st') :
    ∃ st1, stepRecord rates rng ts st c = Except.ok st1 ∧
      runBatch rates rng ts cs st1 = Except.ok st' := by
  rw [runBatch_cons] at h
  cases hs : stepRecord rates rng ts st c with
  | error e => rw [hs] at h; exact absurd h (by simp [Except.bind])
  | ok st1 =>
    rw [hs] at h
    exact ⟨st1, rfl, by simpa [Except.bind] using h⟩

theorem stepRecord_ok_names {rates : List (String × RateVal)} {rng : Nat → Int}
    {ts : String} {st : Sess} {c : RawCountry} {st' : Sess}
    (h : stepRecord rates rng ts st c = Except.ok st') :
    st'.rows.map (fun r => r.name) = st.rows.map (fun r => r.name) ∧
    ∃ t, st'.pending = st.pending ++ t := by
  rcases stepRecord_ok_elim h with ⟨_, rfl⟩ | ⟨n, pop, hk, hcase⟩
  · exact ⟨rfl, [], by simp⟩
  · rcases hcase with ⟨hfl, hrows, hpend, _⟩ | ⟨x, hfl, hrows, hpend, _⟩
    · exact ⟨by rw [hrows], [insRow rates rng ts st c n pop], hpend⟩
    · refine ⟨?_, [], by simp [hpend]⟩
      rw [hrows]
      exact updateFirst_map_name (nameMatches n) (updFn rates rng ts st c pop)
        (fun r => rfl) st.rows

theorem runBatch_ok_names {rates : List (String × RateVal)} {rng : Nat → Int}
    {ts : String} {cs : List RawCountry} :
    ∀ {st st' : Sess}, runBatch rates rng ts cs st = Except.ok st' →
      st'.rows.map (fun r => r.name) = st.rows.map (fun r => r.name) ∧
      ∃ t, st'.pending = st.pending ++ t := by
  induction cs with
  | nil =>
    intro st st' h
    rw [runBatch_nil] at h
    cases (Except.ok.injEq _ _).mp h
    exact ⟨rfl, [], by simp⟩
  | cons c cs ih =>
    intro st st' h
    obtain ⟨st1, hstep, hrest⟩ := runBatch_cons_ok_elim h
    obtain ⟨hn1, t1, hp1⟩ := stepRecord_ok_names hstep
    obtain ⟨hn2, t2, hp2⟩ := ih hrest
    exact ⟨hn2.trans hn1, t1 ++ t2, by rw [hp2, hp1, List.append_assoc]⟩

theorem runBatch_ok_lowerNames {rates : List (String × RateVal)} {rng : Nat → Int}
    {ts : String} {cs : List RawCountry} {st st' : Sess}
    (h : runBatch rates rng ts cs st = Except.ok st') :
    lowerNames st'.rows = lowerNames st.rows := by
  rw [lowerNames_eq_map, lowerNames_eq_map, (runBatch_ok_names h).1]

/-! ### The duplicate-freedom invariant of a batch run -/

theorem keptNames_cons_none {c : RawCountry} {cs : List RawCountry}
    (hk : keptKey c = none) : keptNames (c :: cs) = keptNames cs := by
  simp [keptNames, List.filterMap_cons, hk]

theorem keptNames_cons_some {c : RawCountry} {cs : List RawCountry}
    {n : String} {pop : Int} (hk : keptKey c = some (n, pop)) :
    keptNames (c :: cs) = (strLower n) :: keptNames cs := by
  simp [keptNames, List.filterMap_cons, hk]

theorem lowerNames_updateFirst (n : String) (f : CountryRow → CountryRow)
    (hf : ∀ r, (f r).name = r.name) (rows : List CountryRow) :
    lowerNames (updateFirst (nameMatches n) f rows) = lowerNames rows := by
  rw [lowerNames_eq_map, lowerNames_eq_map,
    updateFirst_map_name (nameMatches n) f hf rows]

theorem nodup_names_of_lower {rows : List CountryRow}
    (h : (lowerNames rows).Nodup) : (rows.map (fun r => r.name)).Nodup := by
  rw [lowerNames_eq_map] at h
  exact h.of_map

theorem runBatch_nodup {rates : List (String × RateVal)} {rng : Nat → Int}
    {ts : String} :
    ∀ (cs : List RawCountry) (st : Sess),
      (lowerNames st.rows).Nodup →
      (lowerNames st.pending).Nodup →
      (∀ m ∈ lowerNames st.pending, m ∉ lowerNames st.rows) →
      (keptNames cs).Nodup →
      (∀ m ∈ keptNames cs, m ∉ lowerNames st.pending) →
      ∃ st', runBatch rates rng ts cs st = Except.ok st' ∧
        lowerNames st'.rows = lowerNames st.rows ∧
        (lowerNames st'.pending).Nodup ∧
        (∀ m ∈ lowerNames st'.pending, m ∉ lowerNames st'.rows) := by
  intro cs
  induction cs with
  | nil =>
    intro st h1 h2 h3 _ _
    exact ⟨st, runBatch_nil rates rng ts st, rfl, h2, h3⟩
  | cons c cs ih =>
    intro st h1 h2 h3 h4 h5
    cases hk : keptKey c with
    | none =>
      rw [keptNames_cons_none hk] at h4 h5
      obtain ⟨st', hrun, ha, hb, hc⟩ := ih st h1 h2 h3 h4 h5
      refine ⟨st', ?_, ha, hb, hc⟩
      rw [runBatch_cons, stepRecord_skip hk]
      simpa [Except.bind] using hrun
    | some q =>
      obtain ⟨n, pop⟩ := q
      rw [keptNames_cons_some hk] at h4 h5
      have hn_notin : (strLower n) ∉ keptNames cs := (List.nodup_cons.mp h4).1
      have h4cs : (keptNames cs).Nodup := (List.nodup_cons.mp h4).2
      have h5head : (strLower n) ∉ lowerNames st.pending :=
        h5 (strLower n) (List.mem_cons_self _ _)
      have h5cs : ∀ m ∈ keptNames cs, m ∉ lowerNames st.pending :=
        fun m hm => h5 m (List.mem_cons_of_mem _ hm)
      rcases filter_nameMatches_le_one h1 n with hfl | ⟨x, hfl⟩
      · -- insert branch
        have hnotrows : (strLower n) ∉ lowerNames st.rows :=
          filter_nameMatches_eq_nil.mp hfl
        set st1 : Sess := ⟨st.rows,
          st.pending ++ [insRow rates rng ts st c n pop],
          nextIdx rates rng st c pop⟩ with hst1
        have hp1 : lowerNames st1.pending =
            lowerNames st.pending ++ [(strLower n)] := by
          simp [hst1, lowerNames, insRow]
        obtain ⟨st', hrun, ha, hb, hc⟩ := ih st1 h1
          (by
            rw [hp1, List.nodup_append]
            exact ⟨h2, List.nodup_singleton _, by
              intro a haa hbb
              simp at hbb
              subst hbb
              exact h5head haa⟩)
          (by
            intro m hm
            rw [hp1] at hm
            rcases List.mem_append.mp hm with hm | hm
            · exact h3 m hm
            · simp at hm
              subst hm
              exact hnotrows)
          h4cs
          (by
            intro m hm
            rw [hp1]
            intro hmem
            rcases List.mem_append.mp hmem with hmm | hmm
            · exact h5cs m hm hmm
            · simp at hmm
              subst hmm
              exact hn_notin hm)
        refine ⟨st', ?_, ha, hb, hc⟩
        rw [runBatch_cons, stepRecord_kept_nil hk hfl]
        simpa [Except.bind, hst1] using hrun
      · -- update branch
        set st1 : Sess := ⟨updateFirst (nameMatches n)
            (updFn rates rng ts st c pop) st.rows,
          st.pending, nextIdx rates rng st c pop⟩ with hst1
        have hr1 : lowerNames st1.rows = lowerNames st.rows := by
          simp only [hst1]
          exact lowerNames_updateFirst n (updFn rates rng ts st c pop)
            (fun r => rfl) st.rows
        obtain ⟨st', hrun, ha, hb, hc⟩ := ih st1
          (by rw [hr1]; exact h1) h2
          (by rw [hr1]; exact h3) h4cs h5cs
        refine ⟨st', ?_, by rw [ha, hr1], hb, hc⟩
        rw [runBatch_cons, stepRecord_kept_single hk hfl]
        simpa [Except.bind, hst1] using hrun

theorem commitOk_eq_true {rows : List CountryRow} :
    commitOk rows = true ↔ (rows.map (fun r => r.name)).Nodup := by
  simp [commitOk]

theorem refreshTxn_ok {rates : List (String × RateVal)} {rng : Nat → Int}
    {ts : String} {cs : List RawCountry} {s : Store}
    (hdb : (lowerNames s.countries).Nodup)
    (hbatch : (keptNames cs).Nodup) :
    ∃ st', runBatch rates rng ts cs ⟨s.countries, [], 0⟩ = Except.ok st' ∧
      refreshTxn rates rng ts cs s = Except.ok
        ⟨st'.rows ++ st'.pending, setMeta s.meta "last_refreshed_at" ts⟩ ∧
      (lowerNames (st'.rows ++ st'.pending)).Nodup := by
  obtain ⟨st', hrun, hrows, hpnd, hdisj⟩ :=
    runBatch_nodup cs ⟨s.countries, [], 0⟩ hdb
      (by simp [lowerNames]) (by simp [lowerNames]) hbatch
      (by simp [lowerNames])
  have hlow : (lowerNames (st'.rows ++ st'.pending)).Nodup := by
    rw [lowerNames_append, List.nodup_append]
    refine ⟨by rw [hrows]; exact hdb, hpnd, ?_⟩
    intro a ha hb
    exact hdisj a hb ha
  have hexact : ((st'.rows ++ st'.pending).map (fun r => r.name)).Nodup :=
    nodup_names_of_lower hlow
  refine ⟨st', hrun, ?_, hlow⟩
  simp only [refreshTxn]
  rw [hrun]
  simp [commitOk_eq_true.mpr hexact]

/-! ### Name-determinism of a batch run (towards idempotence) -/

theorem map_name_singleton {l : List CountryRow} {a : String}
    (h : l.map (fun r => r.name) = [a]) : ∃ y, l = [y] ∧ y.name = a := by
  cases l with
  | nil => simp at h
  | cons y ys =>
    simp only [List.map_cons, List.cons.injEq] at h
    exact ⟨y, by rw [List.map_eq_nil_iff.mp h.2], h.1⟩

theorem map_name_two {l : List CountryRow} {a b : String} {m : List String}
    (h : l.map (fun r => r.name) = a :: b :: m) :
    ∃ x y rest, l = x :: y :: rest := by
  cases l with
  | nil => simp at h
  | cons x xs =>
    cases xs with
    | nil => simp at h
    | cons y rest => exact ⟨x, y, rest, rfl⟩

theorem runBatch_cons_error {rates : List (String × RateVal)} {rng : Nat → Int}
    {ts : String} {c : RawCountry} {cs : List RawCountry} {st : Sess}
    (h : stepRecord rates rng ts st c = Except.error ()) :
    runBatch rates rng ts (c :: cs) st = Except.error () := by
  rw [runBatch_cons, h]
  rfl

theorem runBatch_congr {rates : List (String × RateVal)} {rng1 rng2 : Nat → Int}
    {ts1 ts2 : String} :
    ∀ (cs : List RawCountry) (st1 st2 : Sess),
      st1.rows.map (fun r => r.name) = st2.rows.map (fun r => r.name) →
      st1.pending.map (fun r => r.name) = st2.pending.map (fun r => r.name) →
      (∀ st1', runBatch rates rng1 ts1 cs st1 = Except.ok st1' →
        ∃ st2', runBatch rates rng2 ts2 cs st2 = Except.ok st2' ∧
          st1'.rows.map (fun r => r.name) = st2'.rows.map (fun r => r.name) ∧
          st1'.pending.map (fun r => r.name) = st2'.pending.map (fun r => r.name)) ∧
      (runBatch rates rng1 ts1 cs st1 = Except.error () →
        runBatch rates rng2 ts2 cs st2 = Except.error ()) := by
  intro cs
  induction cs with
  | nil =>
    intro st1 st2 hr hp
    constructor
    · intro st1' h
      rw [runBatch_nil] at h
      cases (Except.ok.injEq _ _).mp h
      exact ⟨st2, runBatch_nil _ _ _ _, hr, hp⟩
    · intro h
      rw [runBatch_nil] at h
      exact absurd h (by simp)
  | cons c cs ih =>
    intro st1 st2 hr hp
    cases hk : keptKey c with
    | none =>
      have e1 : stepRecord rates rng1 ts1 st1 c = Except.ok st1 := stepRecord_skip hk
      have e2 : stepRecord rates rng2 ts2 st2 c = Except.ok st2 := stepRecord_skip hk
      obtain ⟨hok, herr⟩ := ih st1 st2 hr hp
      constructor
      · intro st1' h
        rw [runBatch_cons, e1] at h
        obtain ⟨st2', h2, ha, hb⟩ := hok st1' (by simpa [Except.bind] using h)
        refine ⟨st2', ?_, ha, hb⟩
        rw [runBatch_cons, e2]
        simpa [Except.bind] using h2
      · intro h
        rw [runBatch_cons, e1] at h
        rw [runBatch_cons, e2]
        simp only [Except.bind] at h ⊢
        exact herr h
    | some q =>
      obtain ⟨n, pop⟩ := q
      have hmapfil : (st1.rows.filter (nameMatches n)).map (fun r => r.name) =
          (st2.rows.filter (nameMatches n)).map (fun r => r.name) := by
        rw [filter_nameMatches_map_name, filter_nameMatches_map_name, hr]
      cases hfl1 : st1.rows.filter (nameMatches n) with
      | nil =>
        have hfl2 : st2.rows.filter (nameMatches n) = [] := by
          rw [hfl1] at hmapfil
          exact List.map_eq_nil_iff.mp hmapfil.symm
        have e1 := @stepRecord_kept_nil rates rng1 ts1 st1 c n pop hk hfl1
        have e2 := @stepRecord_kept_nil rates rng2 ts2 st2 c n pop hk hfl2
        obtain ⟨hok, herr⟩ := ih
          ⟨st1.rows, st1.pending ++ [insRow rates rng1 ts1 st1 c n pop],
            nextIdx rates rng1 st1 c pop⟩
          ⟨st2.rows, st2.pending ++ [insRow rates rng2 ts2 st2 c n pop],
            nextIdx rates rng2 st2 c pop⟩
          hr (by simp [insRow, hp])
        constructor
        · intro st1' h
          rw [runBatch_cons, e1] at h
          obtain ⟨st2', h2, ha, hb⟩ := hok st1' (by simpa [Except.bind] using h)
          refine ⟨st2', ?_, ha, hb⟩
          rw [runBatch_cons, e2]
          simpa [Except.bind] using h2
        · intro h
          rw [runBatch_cons, e1] at h
          rw [runBatch_cons, e2]
          simp only [Except.bind] at h ⊢
          exact herr h
      | cons x xs =>
        cases xs with
        | nil =>
          obtain ⟨y, hfl2, hyx⟩ :=
            @map_name_singleton (st2.rows.filter (nameMatches n)) x.name
              (by rw [← hmapfil, hfl1]; rfl)
          have e1 := @stepRecord_kept_single rates rng1 ts1 st1 c n pop x hk hfl1
          have e2 := @stepRecord_kept_single rates rng2 ts2 st2 c n pop y hk hfl2
          obtain ⟨hok, herr⟩ := ih
            ⟨updateFirst (nameMatches n) (updFn rates rng1 ts1 st1 c pop) st1.rows,
              st1.pending, nextIdx rates rng1 st1 c pop⟩
            ⟨updateFirst (nameMatches n) (updFn rates rng2 ts2 st2 c pop) st2.rows,
              st2.pending, nextIdx rates rng2 st2 c pop⟩
            (by
              simp only
              rw [updateFirst_map_name (nameMatches n)
                  (updFn rates rng1 ts1 st1 c pop) (fun r => rfl) st1.rows,
                updateFirst_map_name (nameMatches n)
                  (updFn rates rng2 ts2 st2 c pop) (fun r => rfl) st2.rows]
              exact hr)
            hp
          constructor
          · intro st1' h
            rw [runBatch_cons, e1] at h
            obtain ⟨st2', h2, ha, hb⟩ := hok st1' (by simpa [Except.bind] using h)
            refine ⟨st2', ?_, ha, hb⟩
            rw [runBatch_cons, e2]
            simpa [Except.bind] using h2
          · intro h
            rw [runBatch_cons, e1] at h
            rw [runBatch_cons, e2]
            simp only [Except.bind] at h ⊢
            exact herr h
        | cons y rest =>
          obtain ⟨x2, y2, rest2, hfl2⟩ :=
            @map_name_two (st2.rows.filter (nameMatches n)) _ _ _
              (by rw [← hmapfil, hfl1]; rfl)
          have e1 := @stepRecord_kept_multi rates rng1 ts1 st1 c n pop x y rest hk hfl1
          have e2 := @stepRecord_kept_multi rates rng2 ts2 st2 c n pop x2 y2 rest2 hk hfl2
          constructor
          · intro st1' h
            rw [runBatch_cons_error e1] at h
            exact absurd h (by simp)
          · intro _
            exact runBatch_cons_error e2

theorem runBatch_kept_mem {rates : List (String × RateVal)} {rng : Nat → Int}
    {ts : String} :
    ∀ (cs : List RawCountry) (st : Sess) {st' : Sess},
      runBatch rates rng ts cs st = Except.ok st' →
      ∀ m ∈ keptNames cs,
        m ∈ lowerNames st'.rows ∨ m ∈ lowerNames st'.pending := by
  intro cs
  induction cs with
  | nil =>
    intro st st' _ m hm
    simp [keptNames] at hm
  | cons c cs ih =>
    intro st st' h m hm
    obtain ⟨st1, hstep, hrest⟩ := runBatch_cons_ok_elim h
    cases hk : keptKey c with
    | none =>
      rw [keptNames_cons_none hk] at hm
      rw [stepRecord_skip hk] at hstep
      cases (Except.ok.injEq _ _).mp hstep
      exact ih st hrest m hm
    | some q =>
      obtain ⟨n, pop⟩ := q
      rw [keptNames_cons_some hk] at hm
      rcases List.mem_cons.mp hm with hm | hm
      · subst hm
        have hmono : ∀ m2, m2 ∈ lowerNames st1.rows ∨ m2 ∈ lowerNames st1.pending →
            m2 ∈ lowerNames st'.rows ∨ m2 ∈ lowerNames st'.pending := by
          intro m2 hm2
          obtain ⟨hnames, t, hpend⟩ := runBatch_ok_names hrest
          rcases hm2 with hm2 | hm2
          · left
            rw [lowerNames_eq_map, hnames, ← lowerNames_eq_map]
            exact hm2
          · right
            rw [hpend, lowerNames_append]
            exact List.mem_append_left _ hm2
        cases hfl : st.rows.filter (nameMatches n) with
        | nil =>
          rw [stepRecord_kept_nil hk hfl] at hstep
          cases (Except.ok.injEq _ _).mp hstep
          refine hmono _ (Or.inr ?_)
          simp [lowerNames, insRow]
        | cons x xs =>
          cases xs with
          | nil =>
            rw [stepRecord_kept_single hk hfl] at hstep
            cases (Except.ok.injEq _ _).mp hstep
            refine hmono _ (Or.inl ?_)
            have hx : x ∈ st.rows.filter (nameMatches n) := by rw [hfl]; simp
            have := mem_filter_nameMatches hx
            have hmem : (strLower n) ∈ lowerNames st.rows :=
              mem_lowerNames.mpr ⟨x, this.1, this.2⟩
            rwa [lowerNames_updateFirst n (updFn rates rng ts st c pop)
              (fun r => rfl) st.rows]
          | cons y rest =>
            rw [stepRecord_kept_multi hk hfl] at hstep
            exact absurd hstep (by simp)
      · exact ih st1 hrest m hm

theorem runBatch_no_insert {rates : List (String × RateVal)} {rng : Nat → Int}
    {ts : String} :
    ∀ (cs : List RawCountry) (st : Sess) {st' : Sess},
      (∀ m ∈ keptNames cs, m ∈ lowerNames st.rows) →
      runBatch rates rng ts cs st = Except.ok st' →
      st'.pending = st.pending := by
  intro cs
  induction cs with
  | nil =>
    intro st st' _ h
    rw [runBatch_nil] at h
    cases (Except.ok.injEq _ _).mp h
    rfl
  | cons c cs ih =>
    intro st st' hall h
    obtain ⟨st1, hstep, hrest⟩ := runBatch_cons_ok_elim h
    cases hk : keptKey c with
    | none =>
      rw [stepRecord_skip hk] at hstep
      cases (Except.ok.injEq _ _).mp hstep
      refine ih st ?_ hrest
      intro m hm
      exact hall m (by rw [keptNames_cons_none hk]; exact hm)
    | some q =>
      obtain ⟨n, pop⟩ := q
      have hnmem : (strLower n) ∈ lowerNames st.rows :=
        hall (strLower n) (by rw [keptNames_cons_some hk]; simp)
      cases hfl : st.rows.filter (nameMatches n) with
      | nil =>
        exact absurd hnmem (filter_nameMatches_eq_nil.mp hfl)
      | cons x xs =>
        cases xs with
        | nil =>
          rw [stepRecord_kept_single hk hfl] at hstep
          cases (Except.ok.injEq _ _).mp hstep
          exact ih ⟨updateFirst (nameMatches n) (updFn rates rng ts st c pop)
              st.rows, st.pending, nextIdx rates rng st c pop⟩
            (by
              intro m hm
              simp only
              rw [lowerNames_updateFirst n (updFn rates rng ts st c pop)
                (fun r => rfl) st.rows]
              exact hall m (by
                rw [keptNames_cons_some hk]
                exact List.mem_cons_of_mem _ hm))
            hrest
        | cons y rest =>
          rw [stepRecord_kept_multi hk hfl] at hstep
          exact absurd hstep (by simp)

/-! ### Inversion of `refreshTxn` and `refreshStore` -/

theorem commitOk_congr {rows1 rows2 : List CountryRow}
    (h : rows1.map (fun r => r.name) = rows2.map (fun r => r.name)) :
    commitOk rows1 = commitOk rows2 := by
  unfold commitOk
  rw [h]

theorem refreshTxn_eq_error_of_batch {rates : List (String × RateVal)}
    {rng : Nat → Int} {ts : String} {cs : List RawCountry} {s : Store}
    (h : runBatch rates rng ts cs ⟨s.countries, [], 0⟩ = Except.error ()) :
    refreshTxn rates rng ts cs s = Except.error () := by
  simp [refreshTxn, h]

theorem refreshTxn_eq_of_batch_ok {rates : List (String × RateVal)}
    {rng : Nat → Int} {ts : String} {cs : List RawCountry} {s : Store}
    {st' : Sess} (h : runBatch rates rng ts cs ⟨s.countries, [], 0⟩ = Except.ok st') :
    refreshTxn rates rng ts cs s =
      (if commitOk (st'.rows ++ st'.pending) then
        Except.ok ⟨st'.rows ++ st'.pending, setMeta s.meta "last_refreshed_at" ts⟩
      else Except.error ()) := by
  simp [refreshTxn, h]

theorem refreshTxn_ok_elim {rates : List (String × RateVal)} {rng : Nat → Int}
    {ts : String} {cs : List RawCountry} {s s2 : Store}
    (h : refreshTxn rates rng ts cs s = Except.ok s2) :
    ∃ st', runBatch rates rng ts cs ⟨s.countries, [], 0⟩ = Except.ok st' ∧
      commitOk (st'.rows ++ st'.pending) = true ∧
      s2 = ⟨st'.rows ++ st'.pending, setMeta s.meta "last_refreshed_at" ts⟩ := by
  cases hr : runBatch rates rng ts cs ⟨s.countries, [], 0⟩ with
  | error e =>
    cases e
    rw [refreshTxn_eq_error_of_batch hr] at h
    exact absurd h (by simp)
  | ok st' =>
    rw [refreshTxn_eq_of_batch_ok hr] at h
    by_cases hco : commitOk (st'.rows ++ st'.pending) = true
    · rw [if_pos hco] at h
      exact ⟨st', rfl, hco, ((Except.ok.injEq _ _).mp h).symm⟩
    · rw [if_neg hco] at h
      exact absurd h (by simp)

theorem refreshStore_ok {rates : List (String × RateVal)} {rng : Nat → Int}
    {ts : String} {cs : List RawCountry} {s s2 : Store}
    (h : refreshTxn rates rng ts cs s = Except.ok s2) :
    refreshStore rates rng ts cs s = s2 := by
  simp [refreshStore, h]

theorem refreshStore_error {rates : List (String × RateVal)} {rng : Nat → Int}
    {ts : String} {cs : List RawCountry} {s : Store}
    (h : refreshTxn rates rng ts cs s = Except.error ()) :
    refreshStore rates rng ts cs s = s := by
  simp [refreshStore, h]

theorem refreshTxn_error_congr {rates : List (String × RateVal)}
    {rng1 rng2 : Nat → Int} {ts1 ts2 : String} {cs : List RawCountry} {s : Store}
    (h : refreshTxn rates rng1 ts1 cs s = Except.error ()) :
    refreshTxn rates rng2 ts2 cs s = Except.error () := by
  cases hr1 : runBatch rates rng1 ts1 cs ⟨s.countries, [], 0⟩ with
  | error e =>
    cases e
    exact refreshTxn_eq_error_of_batch
      ((runBatch_congr cs ⟨s.countries, [], 0⟩ ⟨s.countries, [], 0⟩ rfl rfl).2 hr1)
  | ok st1 =>
    obtain ⟨st2, hr2, hrn, hpn⟩ :=
      (runBatch_congr cs ⟨s.countries, [], 0⟩ ⟨s.countries, [], 0⟩ rfl rfl).1 st1 hr1
    have hco : commitOk (st1.rows ++ st1.pending) = false := by
      by_contra hc
      rw [refreshTxn_eq_of_batch_ok hr1,
        if_pos (Bool.of_not_eq_false hc)] at h
      exact absurd h (by simp)
    have hco2 : commitOk (st2.rows ++ st2.pending) = false := by
      rw [← @commitOk_congr (st1.rows ++ st1.pending) (st2.rows ++ st2.pending)
        (by simp [hrn, hpn])]
      exact hco
    rw [refreshTxn_eq_of_batch_ok hr2, hco2]
    simp

/-! ### What a kept record stores -/

theorem updFn_fields (rates : List (String × RateVal)) (rng : Nat → Int)
    (ts : String) (st : Sess) (c : RawCountry) (pop : Int) (r : CountryRow) :
    (updFn rates rng ts st c pop r).population = pop ∧
    (updFn rates rng ts st c pop r).currency_code = recCode c ∧
    (updFn rates rng ts st c pop r).exchange_rate = (recDerive rates rng st c pop).1 ∧
    (updFn rates rng ts st c pop r).estimated_gdp = (recDerive rates rng st c pop).2.1 ∧
    (updFn rates rng ts st c pop r).last_refreshed_at = some ts :=
  ⟨rfl, rfl, rfl, rfl, rfl⟩

theorem insRow_fields (rates : List (String × RateVal)) (rng : Nat → Int)
    (ts : String) (st : Sess) (c : RawCountry) (n : String) (pop : Int) :
    (insRow rates rng ts st c n pop).name = n ∧
    (insRow rates rng ts st c n pop).population = pop ∧
    (insRow rates rng ts st c n pop).currency_code = recCode c ∧
    (insRow rates rng ts st c n pop).exchange_rate = (recDerive rates rng st c pop).1 ∧
    (insRow rates rng ts st c n pop).estimated_gdp = (recDerive rates rng st c pop).2.1 ∧
    (insRow rates rng ts st c n pop).last_refreshed_at = some ts :=
  ⟨rfl, rfl, rfl, rfl, rfl, rfl⟩

theorem stepRecord_stored {rates : List (String × RateVal)} {rng : Nat → Int}
    {ts : String} {st : Sess} {c : RawCountry} {n : String} {pop : Int}
    (hk : keptKey c = some (n, pop))
    (hnodup : (lowerNames (st.rows ++ st.pending)).Nodup)
    (hpend : (strLower n) ∉ lowerNames st.pending) :
    ∃ st', stepRecord rates rng ts st c = Except.ok st' ∧
      st'.idx = nextIdx rates rng st c pop ∧
      (∃ row ∈ st'.rows ++ st'.pending, nameMatches n row = true) ∧
      (∀ row ∈ st'.rows ++ st'.pending, nameMatches n row = true →
        row.population = pop ∧
        row.currency_code = recCode c ∧
        row.exchange_rate = (recDerive rates rng st c pop).1 ∧
        row.estimated_gdp = (recDerive rates rng st c pop).2.1 ∧
        row.last_refreshed_at = some ts) := by
  have hnr : (lowerNames st.rows).Nodup := by
    rw [lowerNames_append, List.nodup_append] at hnodup
    exact hnodup.1
  rcases filter_nameMatches_le_one hnr n with hfl | ⟨x, hfl⟩
  · -- no committed match: insert
    have hnotrows : (strLower n) ∉ lowerNames st.rows :=
      filter_nameMatches_eq_nil.mp hfl
    refine ⟨_, stepRecord_kept_nil hk hfl, rfl, ?_, ?_⟩
    · refine ⟨insRow rates rng ts st c n pop, ?_, ?_⟩
      · simp
      · simp [nameMatches, insRow]
    · intro row hrow hmatch
      have hlow : (strLower row.name) = (strLower n) := by
        simpa [nameMatches] using hmatch
      simp only [List.mem_append] at hrow
      rcases hrow with hrow | hrow | hrow
      · exact absurd (mem_lowerNames.mpr ⟨row, hrow, hlow⟩) hnotrows
      · exact absurd (mem_lowerNames.mpr ⟨row, hrow, hlow⟩) hpend
      · have : row = insRow rates rng ts st c n pop := by simpa using hrow
        subst this
        exact ⟨rfl, rfl, rfl, rfl, rfl⟩
  · -- unique committed match: update in place
    have hx := mem_filter_nameMatches
      (show x ∈ st.rows.filter (nameMatches n) by rw [hfl]; simp)
    obtain ⟨l1, l2, hrows, hl1, hl2, hupd⟩ :=
      updateFirst_decomp (updFn rates rng ts st c pop) hfl
    refine ⟨_, stepRecord_kept_single hk hfl, rfl, ?_, ?_⟩
    · refine ⟨updFn rates rng ts st c pop x, ?_, ?_⟩
      · simp only [List.mem_append, hupd]
        exact Or.inl (by simp)
      · simpa [nameMatches] using hx.2
    · intro row hrow hmatch
      have hlow : (strLower row.name) = (strLower n) := by
        simpa [nameMatches] using hmatch
      simp only [List.mem_append] at hrow
      rcases hrow with hrow | hrow
      · -- row is in the updated committed rows
        rw [hupd] at hrow
        rcases List.mem_append.mp hrow with hrow | hrow
        · -- in the non-matching front part
          have : nameMatches n row = false := hl1 row hrow
          simp [hmatch] at this
        · rcases List.mem_cons.mp hrow with hrow | hrow
          · subst hrow
            exact ⟨rfl, rfl, rfl, rfl, rfl⟩
          · have : nameMatches n row = false := hl2 row hrow
            simp [hmatch] at this
      · -- row is pending: impossible, its lowered name is taken by x
        exfalso
        have hxl : (strLower x.name) = (strLower n) := hx.2
        have hxrow : x ∈ st.rows := hx.1
        have hxm : (strLower n) ∈ lowerNames st.rows :=
          mem_lowerNames.mpr ⟨x, hxrow, hxl⟩
        have hpm : (strLower n) ∈ lowerNames st.pending :=
          mem_lowerNames.mpr ⟨row, hrow, hlow⟩
        rw [lowerNames_append, List.nodup_append] at hnodup
        exact hnodup.2.2 hxm hpm

/-! ### Computing the derivation policy -/

theorem isEmpty_false_of_ne {s : String} (h : s ≠ "") : s.isEmpty = false := by
  rw [← Bool.not_eq_true, String.isEmpty_iff]
  exact h

theorem deriveFields_falsy {code : Option String}
    (rates : List (String × RateVal)) (m popu : Int)
    (h : optStrFalsy code = true) :
    deriveFields rates m popu code = (none, some 0, false) := by
  cases code with
  | none => rfl
  | some s =>
    have hs : s.isEmpty = true := by simpa [optStrFalsy] using h
    simp [deriveFields, hs]

theorem deriveFields_missing {s : String} (rates : List (String × RateVal))
    (m popu : Int) (hne : s ≠ "") (h : rates.lookup s = none) :
    deriveFields rates m popu (some s) = (none, none, false) := by
  simp [deriveFields, isEmpty_false_of_ne hne, h]

theorem deriveFields_unparseable {s : String} (rates : List (String × RateVal))
    (m popu : Int) (hne : s ≠ "")
    (h : rates.lookup s = some RateVal.unparseable) :
    deriveFields rates m popu (some s) = (none, none, false) := by
  simp [deriveFields, isEmpty_false_of_ne hne, h]

theorem deriveFields_num {s : String} {q : ℚ} (rates : List (String × RateVal))
    (m popu : Int) (hne : s ≠ "")
    (h : rates.lookup s = some (RateVal.num q)) (hq : q ≠ 0) :
    deriveFields rates m popu (some s) =
      (some q, some (((popu * m : Int) : ℚ) / q), true) := by
  simp [deriveFields, isEmpty_false_of_ne hne, h, hq]

theorem keptKey_none_of_skip {c : RawCountry}
    (h : c.name = none ∨ c.name = some "" ∨ c.population = none) :
    keptKey c = none := by
  obtain ⟨nm, po, cap, reg, fl, cur⟩ := c
  rcases h with h | h | h
  · simp only at h
    subst h
    cases po <;> rfl
  · simp only at h
    subst h
    cases po <;> simp [keptKey, String.isEmpty_iff]
  · simp only at h
    subst h
    cases nm <;> rfl

/-! ### The claims -/

/-- C4: for every raw record whose name is absent or empty or whose population
is absent, the refresh loop skips the record entirely: the session state is
returned unchanged (no row stored, no row modified) and no error is raised, so
after the refresh such a record is present only if a prior refresh inserted
it. -/
theorem C4_skip_invalid_records (rates : List (String × RateVal))
    (rng : Nat → Int) (ts : String) (st : Sess) (c : RawCountry)
    (h : c.name = none ∨ c.name = some "" ∨ c.population = none) :
    stepRecord rates rng ts st c = Except.ok st :=
  stepRecord_skip (keptKey_none_of_skip h)

/-- C4 witness: the record with a missing population is skipped at a concrete
session state. -/
theorem C4_skip_invalid_records_witness :
    stepRecord demoRates demoRng "t" ⟨[rowKenya], [], 0⟩ recNoPop =
      Except.ok ⟨[rowKenya], [], 0⟩ :=
  C4_skip_invalid_records demoRates demoRng "t" ⟨[rowKenya], [], 0⟩ recNoPop
    (Or.inr (Or.inr rfl))

/-- C1 (counterexample): the claim fails as stated.  When the same refresh
batch contains two records whose names differ only in case, the lookup against
the committed rows misses the first record's still-pending insert
(`autoflush=False`), both rows are inserted, and the commit succeeds because
the UNIQUE constraint on `name` is case-sensitive: the committed store holds
two rows whose names are equal up to case. -/
theorem C1_counterexample :
    refreshTxn [] demoRng "t" dupBatch emptyStore = Except.ok dupStore ∧
    ¬ (lowerNames dupStore.countries).Nodup := by
  constructor
  · rfl
  · decide

/-- C1 (amended): provided the fetched batch itself contains no two kept
records whose names are equal case-insensitively, a refresh of a store with no
case-insensitive duplicates commits, and the committed store again has exactly
one row per case-insensitive name: each kept record updated the unique
existing row that matched its name up to case, or inserted exactly one new
row. -/
theorem C1_no_case_insensitive_duplicates (rates : List (String × RateVal))
    (rng : Nat → Int) (ts : String) (cs : List RawCountry) (s : Store)
    (hdb : (lowerNames s.countries).Nodup)
    (hbatch : (keptNames cs).Nodup) :
    ∃ s2, refreshTxn rates rng ts cs s = Except.ok s2 ∧
      (lowerNames s2.countries).Nodup := by
  obtain ⟨st', _, htxn, hlow⟩ := refreshTxn_ok hdb hbatch
  exact ⟨_, htxn, hlow⟩

/-- C1 witness: a concrete two-record refresh from the empty store commits a
duplicate-free store. -/
theorem C1_no_case_insensitive_duplicates_witness :
    ∃ s2, refreshTxn usdRates demoRng "t" [recNoCur, recXYZ] emptyStore =
      Except.ok s2 ∧ (lowerNames s2.countries).Nodup :=
  C1_no_case_insensitive_duplicates usdRates demoRng "t" [recNoCur, recXYZ]
    emptyStore (by decide) (by decide)

/-- C5: the refresh transaction is atomic and per-record data errors never
abort it.  (1) A storage failure leaves the store exactly as before (rollback,
reported as a 500).  (2) A successful transaction commits the whole batch
together with the `last_refreshed_at` metadata write.  (3) The loop body can
only raise a storage error when the committed rows already contain two
case-insensitive matches for a name; skipped records, malformed currency
entries and unparseable rates always return normally.  (4) In particular, on a
duplicate-free store and batch the whole refresh commits. -/
theorem C5_transactional_refresh (rates : List (String × RateVal))
    (rng : Nat → Int) (ts : String) (cs : List RawCountry) (s : Store)
    (renderOk : Bool) :
    ((refreshEndpoint rates rng ts cs renderOk s).1 = RefreshResponse.storageFailure →
      (refreshEndpoint rates rng ts cs renderOk s).2 = s) ∧
    (∀ s2, refreshTxn rates rng ts cs s = Except.ok s2 →
      ∃ st', runBatch rates rng ts cs ⟨s.countries, [], 0⟩ = Except.ok st' ∧
        s2 = ⟨st'.rows ++ st'.pending, setMeta s.meta "last_refreshed_at" ts⟩) ∧
    (∀ (st : Sess) (c : RawCountry), (lowerNames st.rows).Nodup →
      stepRecord rates rng ts st c ≠ Except.error ()) ∧
    ((lowerNames s.countries).Nodup → (keptNames cs).Nodup →
      ∃ s2, refreshTxn rates rng ts cs s = Except.ok s2) := by
  refine ⟨?_, ?_, ?_, ?_⟩
  · intro h
    cases ht : refreshTxn rates rng ts cs s with
    | error e =>
      cases e
      simp [refreshEndpoint, ht]
    | ok s2 =>
      exfalso
      cases renderOk <;> simp [refreshEndpoint, ht] at h
  · intro s2 h
    obtain ⟨st', hrun, _, hs2⟩ := refreshTxn_ok_elim h
    exact ⟨st', hrun, hs2⟩
  · intro st c hnd heq
    cases hk : keptKey c with
    | none =>
      rw [stepRecord_skip hk] at heq
      exact absurd heq (by simp)
    | some q =>
      obtain ⟨n, pop⟩ := q
      rcases filter_nameMatches_le_one hnd n with hfl | ⟨x, hfl⟩
      · rw [stepRecord_kept_nil hk hfl] at heq
        exact absurd heq (by simp)
      · rw [stepRecord_kept_single hk hfl] at heq
        exact absurd heq (by simp)
  · intro hdb hbatch
    obtain ⟨st', _, htxn, _⟩ := refreshTxn_ok hdb hbatch
    exact ⟨_, htxn⟩

/-- C5 witness: a batch containing a skipped record, an unparseable rate and a
valid rate commits as one transaction. -/
theorem C5_transactional_refresh_witness :
    ∃ s2, refreshTxn demoRates demoRng "t" messyBatch emptyStore =
      Except.ok s2 :=
  (C5_transactional_refresh demoRates demoRng "t" messyBatch emptyStore
    true).2.2.2 (by decide) (by decide)

/-- C7: refresh is idempotent on identity.  For every store, refreshing twice
with the same country sequence and the same rate mapping (the multiplier
oracle and timestamp may differ between the runs) leaves the same list of row
names, and hence the same row count, after the second refresh as after the
first. -/
theorem C7_refresh_idempotent_on_identity (rates : List (String × RateVal))
    (rng1 rng2 : Nat → Int) (ts1 ts2 : String) (cs : List RawCountry)
    (s : Store) :
    (refreshStore rates rng2 ts2 cs
        (refreshStore rates rng1 ts1 cs s)).countries.map (fun r => r.name) =
      (refreshStore rates rng1 ts1 cs s).countries.map (fun r => r.name) ∧
    (refreshStore rates rng2 ts2 cs
        (refreshStore rates rng1 ts1 cs s)).countries.length =
      (refreshStore rates rng1 ts1 cs s).countries.length := by
  have main : (refreshStore rates rng2 ts2 cs
      (refreshStore rates rng1 ts1 cs s)).countries.map (fun r => r.name) =
      (refreshStore rates rng1 ts1 cs s).countries.map (fun r => r.name) := by
    cases h1 : refreshTxn rates rng1 ts1 cs s with
    | error e =>
      cases e
      rw [refreshStore_error h1, refreshStore_error (refreshTxn_error_congr h1)]
    | ok s1 =>
      rw [refreshStore_ok h1]
      obtain ⟨st1, hrun1, hco1, hs1⟩ := refreshTxn_ok_elim h1
      have hkept : ∀ m ∈ keptNames cs, m ∈ lowerNames s1.countries := by
        intro m hm
        rcases runBatch_kept_mem cs ⟨s.countries, [], 0⟩ hrun1 m hm with hh | hh
        · rw [hs1]
          simp only
          rw [lowerNames_append]
          exact List.mem_append_left _ hh
        · rw [hs1]
          simp only
          rw [lowerNames_append]
          exact List.mem_append_right _ hh
      cases h2 : refreshTxn rates rng2 ts2 cs s1 with
      | error e =>
        cases e
        rw [refreshStore_error h2]
      | ok s2 =>
        rw [refreshStore_ok h2]
        obtain ⟨st2, hrun2, hco2, hs2⟩ := refreshTxn_ok_elim h2
        have hpend : st2.pending = [] :=
          runBatch_no_insert cs ⟨s1.countries, [], 0⟩ hkept hrun2
        have hnames := (runBatch_ok_names hrun2).1
        rw [hs2]
        show (st2.rows ++ st2.pending).map (fun r => r.name) =
          s1.countries.map (fun r => r.name)
        rw [hpend, List.append_nil]
        exact hnames
  refine ⟨main, ?_⟩
  have hlen := congrArg List.length main
  simpa using hlen

/-- C2 (counterexample): the claim fails as stated.  The record whose first
currency entry carries the empty code has a resolved currency code that is
non-null (`some ""`) and has no entry in the non-empty rate mapping, so the
claim demands both stored fields null; the code instead tests Python
truthiness, takes the null-currency branch and stores estimated value 0. -/
theorem C2_counterexample :
    recCode recEmptyCode = some "" ∧
    usdRates.lookup "" = none ∧
    ¬ (∀ st', stepRecord usdRates demoRng "t" ⟨[], [], 0⟩ recEmptyCode =
          Except.ok st' →
        ∀ row ∈ st'.rows ++ st'.pending, nameMatches "Testland" row = true →
          row.exchange_rate = none ∧ row.estimated_gdp = none) := by
  refine ⟨rfl, rfl, fun h => ?_⟩
  have hrow := h ⟨[], [⟨"Testland", none, none, 7, some "", none, some 0, none,
      some "t"⟩], 0⟩ rfl
    ⟨"Testland", none, none, 7, some "", none, some 0, none, some "t"⟩
    (by decide) (by decide)
  exact absurd hrow.2 (by decide)

/-- C2 (amended): per-record derivation policy.  If the resolved currency code
is null, the stored row has a null exchange rate and estimated value exactly
0.  If the resolved code is non-null and non-empty but absent from the rate
mapping, or its rate value is unparseable, the stored row has both fields
null.  In each case the step returns normally, so the refresh does not fail on
account of that record. -/
theorem C2_derivation_null_and_missing (rates : List (String × RateVal))
    (rng : Nat → Int) (ts : String) (st : Sess) (c : RawCountry) (n : String)
    (pop : Int) (hk : keptKey c = some (n, pop))
    (hnodup : (lowerNames (st.rows ++ st.pending)).Nodup)
    (hpend : (strLower n) ∉ lowerNames st.pending) :
    (recCode c = none →
      ∃ st', stepRecord rates rng ts st c = Except.ok st' ∧
        (∃ row ∈ st'.rows ++ st'.pending, nameMatches n row = true) ∧
        ∀ row ∈ st'.rows ++ st'.pending, nameMatches n row = true →
          row.exchange_rate = none ∧ row.estimated_gdp = some 0) ∧
    (∀ code, recCode c = some code → code ≠ "" →
      (rates.lookup code = none ∨ rates.lookup code = some RateVal.unparseable) →
      ∃ st', stepRecord rates rng ts st c = Except.ok st' ∧
        (∃ row ∈ st'.rows ++ st'.pending, nameMatches n row = true) ∧
        ∀ row ∈ st'.rows ++ st'.pending, nameMatches n row = true →
          row.exchange_rate = none ∧ row.estimated_gdp = none) := by
  obtain ⟨st', hstep, hidx, hex, hall⟩ := stepRecord_stored hk hnodup hpend
  constructor
  · intro hcode
    refine ⟨st', hstep, hex, ?_⟩
    intro row hrow hmatch
    obtain ⟨_, _, hrate, hgdp, _⟩ := hall row hrow hmatch
    have hd : recDerive rates rng st c pop = (none, some 0, false) := by
      rw [recDerive, hcode]
      exact deriveFields_falsy rates _ pop rfl
    rw [hd] at hrate hgdp
    exact ⟨hrate, hgdp⟩
  · intro code hcode hne hlook
    refine ⟨st', hstep, hex, ?_⟩
    intro row hrow hmatch
    obtain ⟨_, _, hrate, hgdp, _⟩ := hall row hrow hmatch
    have hd : recDerive rates rng st c pop = (none, none, false) := by
      rw [recDerive, hcode]
      rcases hlook with hl | hl
      · exact deriveFields_missing rates _ pop hne hl
      · exact deriveFields_unparseable rates _ pop hne hl
    rw [hd] at hrate hgdp
    exact ⟨hrate, hgdp⟩

/-- C2 witness: a concrete record with no currencies at all stores a null
exchange rate and estimated value 0. -/
theorem C2_derivation_null_and_missing_witness :
    ∃ st', stepRecord demoRates demoRng "t" ⟨[], [], 0⟩ recNoCur =
        Except.ok st' ∧
      (∃ row ∈ st'.rows ++ st'.pending, nameMatches "Testland" row = true) ∧
      ∀ row ∈ st'.rows ++ st'.pending, nameMatches "Testland" row = true →
        row.exchange_rate = none ∧ row.estimated_gdp = some 0 :=
  (C2_derivation_null_and_missing demoRates demoRng "t" ⟨[], [], 0⟩ recNoCur
    "Testland" 7 (by decide) (by decide) (by decide)).1 (by decide)

/-- C3: a record whose resolved currency code is present in the rate mapping
with a parseable rate R > 0 stores exchange_rate = R and estimated value
= population × M ÷ R, where M is the multiplier drawn for this record alone
(`random.randint(1000, 2000)` keeps every draw in [1000, 2000] and the stream
position advances by exactly one); hence, for the non-negative populations of
the feed, population×1000/R ≤ estimated value ≤ population×2000/R. -/
theorem C3_valid_rate_bounds (rates : List (String × RateVal))
    (rng : Nat → Int) (ts : String) (st : Sess) (c : RawCountry) (n : String)
    (pop : Int) (code : String) (R : ℚ)
    (hrng : ∀ k, 1000 ≤ rng k ∧ rng k ≤ 2000)
    (hk : keptKey c = some (n, pop)) (hpop : 0 ≤ pop)
    (hcode : recCode c = some code) (hne : code ≠ "")
    (hrate : rates.lookup code = some (RateVal.num R)) (hR : 0 < R)
    (hnodup : (lowerNames (st.rows ++ st.pending)).Nodup)
    (hpend : (strLower n) ∉ lowerNames st.pending) :
    ∃ st', stepRecord rates rng ts st c = Except.ok st' ∧
      st'.idx = st.idx + 1 ∧
      ∃ M : Int, M = rng st.idx ∧ 1000 ≤ M ∧ M ≤ 2000 ∧
        (∃ row ∈ st'.rows ++ st'.pending, nameMatches n row = true) ∧
        ∀ row ∈ st'.rows ++ st'.pending, nameMatches n row = true →
          row.exchange_rate = some R ∧
          row.estimated_gdp = some (((pop * M : Int) : ℚ) / R) ∧
          ((pop * 1000 : Int) : ℚ) / R ≤ ((pop * M : Int) : ℚ) / R ∧
          ((pop * M : Int) : ℚ) / R ≤ ((pop * 2000 : Int) : ℚ) / R := by
  have hd : recDerive rates rng st c pop =
      (some R, some (((pop * rng st.idx : Int) : ℚ) / R), true) := by
    rw [recDerive, hcode]
    exact deriveFields_num rates _ pop hne hrate (ne_of_gt hR)
  obtain ⟨st', hstep, hidx, hex, hall⟩ := stepRecord_stored hk hnodup hpend
  refine ⟨st', hstep, ?_, rng st.idx, rfl, (hrng st.idx).1, (hrng st.idx).2,
    hex, ?_⟩
  · rw [hidx]
    simp [nextIdx, hd]
  · intro row hrow hmatch
    obtain ⟨_, _, hrate2, hgdp, _⟩ := hall row hrow hmatch
    have h1000 : ((pop * 1000 : Int) : ℚ) ≤ ((pop * rng st.idx : Int) : ℚ) := by
      exact_mod_cast mul_le_mul_of_nonneg_left (hrng st.idx).1 hpop
    have h2000 : ((pop * rng st.idx : Int) : ℚ) ≤ ((pop * 2000 : Int) : ℚ) := by
      exact_mod_cast mul_le_mul_of_nonneg_left (hrng st.idx).2 hpop
    refine ⟨?_, ?_, ?_, ?_⟩
    · rw [hrate2, hd]
    · rw [hgdp, hd]
    · gcongr
    · gcongr

/-- C3 witness: the spec's own scenario, population 1000 and rate 2 with the
fixed multiplier 1500. -/
theorem C3_valid_rate_bounds_witness :
    ∃ st', stepRecord demoRates demoRng "t" ⟨[], [], 0⟩ recABC =
        Except.ok st' ∧
      st'.idx = 0 + 1 ∧
      ∃ M : Int, M = demoRng 0 ∧ 1000 ≤ M ∧ M ≤ 2000 ∧
        (∃ row ∈ st'.rows ++ st'.pending, nameMatches "Testland" row = true) ∧
        ∀ row ∈ st'.rows ++ st'.pending, nameMatches "Testland" row = true →
          row.exchange_rate = some 2 ∧
          row.estimated_gdp = some (((1000 * M : Int) : ℚ) / 2) ∧
          ((1000 * 1000 : Int) : ℚ) / 2 ≤ ((1000 * M : Int) : ℚ) / 2 ∧
          ((1000 * M : Int) : ℚ) / 2 ≤ ((1000 * 2000 : Int) : ℚ) / 2 :=
  C3_valid_rate_bounds demoRates demoRng "t" ⟨[], [], 0⟩ recABC "Testland"
    1000 "ABC" 2 (fun k => ⟨by norm_num [demoRng], by norm_num [demoRng]⟩)
    (by decide) (by decide)
    (by decide) (by decide) (by decide) (by decide) (by decide) (by decide)

/-- C10: a record whose currencies field is present but not a list, or whose
first entry is not an object, or is an object whose code is the empty string,
is treated exactly like the null-currency case even when the rate mapping is
non-empty: the stored currency code is null or empty, the exchange rate is
null, the estimated value is exactly 0, and no multiplier is drawn. -/
theorem C10_malformed_currency_like_null (rates : List (String × RateVal))
    (rng : Nat → Int) (ts : String) (st : Sess) (c : RawCountry) (n : String)
    (pop : Int) (hk : keptKey c = some (n, pop))
    (hnodup : (lowerNames (st.rows ++ st.pending)).Nodup)
    (hpend : (strLower n) ∉ lowerNames st.pending)
    (hshape : c.currencies = CurrenciesVal.nonListTruthy ∨
      (∃ rest, c.currencies =
        CurrenciesVal.listVal (CurrencyEntry.nonDict :: rest)) ∨
      (∃ rest, c.currencies =
        CurrenciesVal.listVal (CurrencyEntry.dictEntry (some "") :: rest))) :
    ∃ st', stepRecord rates rng ts st c = Except.ok st' ∧ st'.idx = st.idx ∧
      (∃ row ∈ st'.rows ++ st'.pending, nameMatches n row = true) ∧
      ∀ row ∈ st'.rows ++ st'.pending, nameMatches n row = true →
        optStrFalsy row.currency_code = true ∧
        row.exchange_rate = none ∧ row.estimated_gdp = some 0 := by
  have hfalsy : optStrFalsy (recCode c) = true := by
    rcases hshape with h | ⟨rest, h⟩ | ⟨rest, h⟩ <;>
      simp [recCode, resolveCurrencyCode, h, optStrFalsy, String.isEmpty_iff]
  have hd : recDerive rates rng st c pop = (none, some 0, false) :=
    deriveFields_falsy rates _ pop hfalsy
  obtain ⟨st', hstep, hidx, hex, hall⟩ := stepRecord_stored hk hnodup hpend
  refine ⟨st', hstep, ?_, hex, ?_⟩
  · rw [hidx]
    simp [nextIdx, hd]
  · intro row hrow hmatch
    obtain ⟨_, hcc, hrate, hgdp, _⟩ := hall row hrow hmatch
    refine ⟨?_, ?_, ?_⟩
    · rw [hcc]
      exact hfalsy
    · rw [hrate, hd]
    · rw [hgdp, hd]

/-- C10 witness: the record with a truthy non-list currencies field is stored
with estimated value 0 against a non-empty rate mapping. -/
theorem C10_malformed_currency_like_null_witness :
    ∃ st', stepRecord usdRates demoRng "t" ⟨[], [], 0⟩ recNonList =
        Except.ok st' ∧ st'.idx = 0 ∧
      (∃ row ∈ st'.rows ++ st'.pending, nameMatches "Atlantis" row = true) ∧
      ∀ row ∈ st'.rows ++ st'.pending, nameMatches "Atlantis" row = true →
        optStrFalsy row.currency_code = true ∧
        row.exchange_rate = none ∧ row.estimated_gdp = some 0 :=
  C10_malformed_currency_like_null usdRates demoRng "t" ⟨[], [], 0⟩ recNonList
    "Atlantis" 9 (by decide) (by decide) (by decide) (Or.inl rfl)

/-- C6 (code defect): after a successful commit the summary image is generated
inside `try/finally` with no `except`, so a rendering failure escapes to the
framework: the caller receives an error response instead of the success
payload with the refresh timestamp, although the commit already persisted. -/
theorem C6_render_failure_breaks_response :
    refreshEndpoint demoRates demoRng "t" [recABC] false emptyStore =
      (RefreshResponse.renderFailure, abcStore) ∧
    RefreshResponse.renderFailure ≠ RefreshResponse.success "t" := by
  refine ⟨?_, by simp⟩
  rfl

/-! ### Order lemmas for the two sort comparators -/

theorem gdpAscLE_trans (a b c : CountryRow) (h1 : gdpAscLE a b = true)
    (h2 : gdpAscLE b c = true) : gdpAscLE a c = true := by
  unfold gdpAscLE at h1 h2 ⊢
  rcases ha : a.estimated_gdp with _ | x <;>
    rcases hb : b.estimated_gdp with _ | y <;>
      rcases hc : c.estimated_gdp with _ | z <;>
        simp_all
  exact le_trans h1 h2

theorem gdpAscLE_total (a b : CountryRow) : gdpAscLE a b || gdpAscLE b a := by
  unfold gdpAscLE
  rcases a.estimated_gdp with _ | x <;> rcases b.estimated_gdp with _ | y <;>
    simp
  exact le_total x y

theorem gdpDescLE_trans (a b c : CountryRow) (h1 : gdpDescLE a b = true)
    (h2 : gdpDescLE b c = true) : gdpDescLE a c = true := by
  unfold gdpDescLE at h1 h2 ⊢
  rcases ha : a.estimated_gdp with _ | x <;>
    rcases hb : b.estimated_gdp with _ | y <;>
      rcases hc : c.estimated_gdp with _ | z <;>
        simp_all
  exact le_trans h2 h1

theorem gdpDescLE_total (a b : CountryRow) : gdpDescLE a b || gdpDescLE b a := by
  unfold gdpDescLE
  rcases a.estimated_gdp with _ | x <;> rcases b.estimated_gdp with _ | y <;>
    simp
  exact le_total y x

theorem truthy_some_of_ne {v : String} (h : v ≠ "") :
    truthyOpt (some v) = true := by
  simp [truthyOpt, isEmpty_false_of_ne h]

theorem list_countries_region_filter (s : Store) {v : String} (h : v ≠ "") :
    list_countries s (some v) none none =
      s.countries.filter (fun r => r.region == some v) := by
  simp [list_countries, truthyOpt, isEmpty_false_of_ne h]

theorem list_countries_currency_filter (s : Store) {v : String} (h : v ≠ "") :
    list_countries s none (some v) none =
      s.countries.filter (fun r => r.currency_code == some v) := by
  simp [list_countries, truthyOpt, isEmpty_false_of_ne h]

theorem list_countries_sort_asc (s : Store) (reg cur : Option String) :
    list_countries s reg cur (some "gdp_asc") =
      (list_countries s reg cur none).mergeSort gdpAscLE := by
  have h : ("gdp_asc" : String).isEmpty = false := by decide
  simp [list_countries, truthyOpt, h]

theorem list_countries_sort_desc (s : Store) (reg cur : Option String) :
    list_countries s reg cur (some "gdp_desc") =
      (list_countries s reg cur none).mergeSort gdpDescLE := by
  have h : ("gdp_desc" : String).isEmpty = false := by decide
  simp [list_countries, truthyOpt, h]

theorem list_countries_sort_other (s : Store) (reg cur : Option String)
    {v : String} (h1 : v ≠ "gdp_asc") (h2 : v ≠ "gdp_desc") :
    list_countries s reg cur (some v) = list_countries s reg cur none := by
  by_cases he : v = ""
  · subst he
    simp [list_countries, truthyOpt]
  · have e1 : ((some v : Option String) == some "gdp_desc") = false := by
      simp [h2]
    have e2 : ((some v : Option String) == some "gdp_asc") = false := by
      simp [h1]
    simp [list_countries, truthyOpt, isEmpty_false_of_ne he, e1, e2]

/-- C8 (counterexample): with the region parameter given as the empty string
the claim demands that only rows whose region equals "" be returned; the code
treats the falsy parameter like an absent one and applies no filter at all. -/
theorem C8_counterexample :
    list_countries twoRowStore (some "") none none = [rowKenya, rowJapan] ∧
    rowKenya.region ≠ some "" := by
  exact ⟨rfl, by decide⟩

/-- C8 (amended): the list endpoint applies an equality filter exactly when
the corresponding parameter is given and non-empty (an absent or empty
parameter filters nothing, and never means "match null"); an unmatched filter
yields the empty list rather than an error (the function is total); sorting
happens only for the two recognised values, which permute the filtered rows
into ascending respectively descending estimated-value order, and any other
sort value leaves the default order. -/
theorem C8_list_filter_sort (s : Store) (v other : String)
    (reg cur : Option String) :
    (list_countries s none none none = s.countries) ∧
    (list_countries s (some "") none none = s.countries) ∧
    (v ≠ "" → list_countries s (some v) none none =
      s.countries.filter (fun r => r.region == some v)) ∧
    (v ≠ "" → list_countries s none (some v) none =
      s.countries.filter (fun r => r.currency_code == some v)) ∧
    (other ≠ "gdp_asc" → other ≠ "gdp_desc" →
      list_countries s reg cur (some other) = list_countries s reg cur none) ∧
    ((list_countries s reg cur (some "gdp_asc")).Perm
        (list_countries s reg cur none) ∧
      (list_countries s reg cur (some "gdp_asc")).Pairwise
        (fun a b => gdpAscLE a b = true)) ∧
    ((list_countries s reg cur (some "gdp_desc")).Perm
        (list_countries s reg cur none) ∧
      (list_countries s reg cur (some "gdp_desc")).Pairwise
        (fun a b => gdpDescLE a b = true)) := by
  refine ⟨rfl, rfl, ?_, ?_, ?_, ⟨?_, ?_⟩, ⟨?_, ?_⟩⟩
  · intro h
    exact list_countries_region_filter s h
  · intro h
    exact list_countries_currency_filter s h
  · intro h1 h2
    exact list_countries_sort_other s reg cur h1 h2
  · rw [list_countries_sort_asc]
    exact List.mergeSort_perm _ _
  · rw [list_countries_sort_asc]
    exact List.sorted_mergeSort gdpAscLE_trans gdpAscLE_total _
  · rw [list_countries_sort_desc]
    exact List.mergeSort_perm _ _
  · rw [list_countries_sort_desc]
    exact List.sorted_mergeSort gdpDescLE_trans gdpDescLE_total _

/-- C8 witness: region filtering on a concrete store returns exactly the
matching row, and an unmatched region returns the empty list. -/
theorem C8_list_filter_sort_witness :
    list_countries twoRowStore (some "Africa") none none = [rowKenya] ∧
    list_countries twoRowStore (some "Europe") none none = [] := by
  constructor
  · rw [(C8_list_filter_sort twoRowStore "Africa" "x" none none).2.2.1
      (by decide)]
    decide
  · rw [(C8_list_filter_sort twoRowStore "Europe" "x" none none).2.2.1
      (by decide)]
    decide

/-! ### Removal of the unique match -/

theorem removeFirst_eq_filter_not {p : CountryRow → Bool} {x : CountryRow} :
    ∀ {rows : List CountryRow}, rows.filter p = [x] →
      removeFirst p rows = rows.filter (fun r => !(p r))
  | [], h => by simp at h
  | r :: rs, h => by
    by_cases hp : p r = true
    · have hfil : List.filter p (r :: rs) = r :: List.filter p rs := by
        simp [List.filter_cons, hp]
      rw [hfil] at h
      have hrs : rs.filter p = [] := (List.cons_eq_cons.mp h).2
      have hall : ∀ q ∈ rs, p q = false := by
        intro q hq
        simpa using List.filter_eq_nil_iff.mp hrs q hq
      have hself : rs.filter (fun r => !(p r)) = rs := by
        rw [List.filter_eq_self]
        intro a ha
        simp [hall a ha]
      simp [removeFirst, hp, List.filter_cons, hself]
    · have hfil : List.filter p (r :: rs) = List.filter p rs := by
        simp [List.filter_cons, hp]
      rw [hfil] at h
      have ih := removeFirst_eq_filter_not h
      simp [removeFirst, hp, List.filter_cons, ih]

/-- C9: `get` and `delete` match by case-insensitive name equality on a
duplicate-free store: they return (respectively remove) the unique row whose
name equals the argument up to case and report NotFound exactly when no such
row exists; delete removes only that row, keeps every other row and leaves
the metadata untouched. -/
theorem C9_get_delete_case_insensitive (s : Store) (n : String)
    (hnodup : (lowerNames s.countries).Nodup) :
    ((∀ r ∈ s.countries, strLower r.name ≠ strLower n) →
      get_country s n = GetResult.notFound ∧
      delete_country s n = (GetResult.notFound, s)) ∧
    (∀ r ∈ s.countries, strLower r.name = strLower n →
      get_country s n = GetResult.found r ∧
      (delete_country s n).1 = GetResult.found r ∧
      (delete_country s n).2.countries =
        s.countries.filter (fun x => !(nameMatches n x)) ∧
      (delete_country s n).2.meta = s.meta ∧
      r ∉ (delete_country s n).2.countries ∧
      ∀ x ∈ s.countries, x ≠ r → x ∈ (delete_country s n).2.countries) := by
  constructor
  · intro hnone
    have hfl : s.countries.filter (nameMatches n) = [] := by
      rw [List.filter_eq_nil_iff]
      intro r hr
      simp [nameMatches]
      exact hnone r hr
    exact ⟨by simp [get_country, hfl], by simp [delete_country, hfl]⟩
  · intro r hr hmatch
    have hrfl : r ∈ s.countries.filter (nameMatches n) :=
      List.mem_filter.mpr ⟨hr, by simp [nameMatches, hmatch]⟩
    rcases filter_nameMatches_le_one hnodup n with hfl | ⟨x, hfl⟩
    · rw [hfl] at hrfl
      simp at hrfl
    · have hrx : r = x := by
        rw [hfl] at hrfl
        simpa using hrfl
      subst hrx
      have hrem : removeFirst (nameMatches n) s.countries =
          s.countries.filter (fun y => !(nameMatches n y)) :=
        removeFirst_eq_filter_not hfl
      have hdel : delete_country s n = (GetResult.found r,
          ⟨s.countries.filter (fun y => !(nameMatches n y)), s.meta⟩) := by
        simp [delete_country, hfl, hrem]
      refine ⟨by simp [get_country, hfl], by rw [hdel], by rw [hdel],
        by rw [hdel], ?_, ?_⟩
      · rw [hdel]
        intro hmem
        have hcontra := (List.mem_filter.mp hmem).2
        simp [nameMatches, hmatch] at hcontra
      · intro x hx hne
        rw [hdel]
        refine List.mem_filter.mpr ⟨hx, ?_⟩
        by_cases hxm : nameMatches n x = true
        · exfalso
          have hxin : x ∈ s.countries.filter (nameMatches n) :=
            List.mem_filter.mpr ⟨hx, hxm⟩
          rw [hfl] at hxin
          simp at hxin
          exact hne hxin
        · rw [Bool.not_eq_true] at hxm
          simp [hxm]

/-- C9 witness: case-insensitive get and delete on a concrete store. -/
theorem C9_get_delete_case_insensitive_witness :
    get_country twoRowStore "kenya" = GetResult.found rowKenya ∧
    (delete_country twoRowStore "kenya").2.countries = [rowJapan] := by
  have h := (C9_get_delete_case_insensitive twoRowStore "kenya"
    (by decide)).2 rowKenya (by decide) (by decide)
  refine ⟨h.1, ?_⟩
  rw [h.2.2.1]
  decide

end CountryApi
